import Mathlib

/-!
Verification of the task_timer repository (files `src/TaskList.js`, `src/Agenda.js`
with its `Task` class, and the variant `TaskList` found in the repository whose
`organizeTasks` clamps delays).

The JavaScript code is shallowly embedded:
* JS objects used as string-keyed dictionaries become association lists
  (`List (String × Task)`), preserving insertion order.
* `Date` objects are millisecond time values (`Int`); where the *identity* of a
  `Date` object matters (the defensive-copy claim) a small explicit heap of date
  cells is used instead (see the `TaskH` section).
* Functions that can throw (`TypeError`, `RangeError`) return `Except JsErr _`.
* `randomBytes`-based id generation is modelled by a deterministic function
  `freshId` satisfying the generation loop's postcondition: the produced id is
  not among the existing keys.
-/

deriving instance DecidableEq for Except

namespace TaskTimer

/-- A JavaScript value, restricted to the shapes the embedded code inspects:
`instanceof Date`, `instanceof Function`, `Number.isInteger`, null/undefined,
strings, and numbers that are not integers. -/
inductive JsVal where
  | vNull
  | vUndef
  | vInt (n : Int)
  | vNonIntNum
  | vStr (s : String)
  | vDate (ms : Int)
  | vFun (tag : Nat)
deriving DecidableEq

/-- The error conditions raised by the embedded code. -/
inductive JsErr where
  | typeError
  | rangeError
deriving DecidableEq

def JsVal.isDateInstance : JsVal → Bool
  | .vDate _ => true
  | _ => false

def JsVal.isFunctionInstance : JsVal → Bool
  | .vFun _ => true
  | _ => false

/-- Source `Number.isInteger(x)`. -/
def JsVal.isIntegerNumber : JsVal → Bool
  | .vInt _ => true
  | _ => false

def JsVal.dateMs : JsVal → Int
  | .vDate ms => ms
  | _ => 0

def JsVal.intVal : JsVal → Int
  | .vInt n => n
  | _ => 0

def JsVal.funTag : JsVal → Nat
  | .vFun t => t
  | _ => 0

/-- The `Task` class of `src/Agenda.js` (the version with `#name = null` and a
`#description` field).  Dates are time values here; `payloadTag` stands for the
identity of the payload function. -/
structure Task where
  id : String
  name : Option String
  description : Option String
  creationTime : Int
  executionTime : Int
  payloadTag : Nat
  payloadArgs : List JsVal
deriving DecidableEq

/-- Source `Task.createTaskWithExecutionTime(executionTime, executionFunction, ...args)`.
`now` is the wall clock read by `new Date()` for the creation time. -/
def Task.createTaskWithExecutionTime (now : Int) (executionTime executionFunction : JsVal)
    (executionArguments : List JsVal) : Except JsErr Task :=
  if ¬ executionTime.isDateInstance then .error .typeError
  else if ¬ executionFunction.isFunctionInstance then .error .typeError
  else .ok
    { id := "", name := none, description := none,
      creationTime := now, executionTime := executionTime.dateMs,
      payloadTag := executionFunction.funTag, payloadArgs := executionArguments }

/-- Source `Task.createTaskWithExecutionDelay(executionDelay, executionFunction, ...args)`.
The only check on the delay is `Number.isInteger`. -/
def Task.createTaskWithExecutionDelay (now : Int) (executionDelay executionFunction : JsVal)
    (executionArguments : List JsVal) : Except JsErr Task :=
  if ¬ executionDelay.isIntegerNumber then .error .typeError
  else if ¬ executionFunction.isFunctionInstance then .error .typeError
  else .ok
    { id := "", name := none, description := none,
      creationTime := now, executionTime := now + executionDelay.intVal,
      payloadTag := executionFunction.funTag, payloadArgs := executionArguments }

/-- Source `Task.getCopy`: in this value-level model the date time values are copied;
reference sharing of the `Date` objects is treated in the `TaskH` heap model. -/
def Task.getCopy (t : Task) : Task :=
  { id := t.id, name := t.name, description := t.description,
    creationTime := t.creationTime, executionTime := t.executionTime,
    payloadTag := t.payloadTag, payloadArgs := t.payloadArgs }

/-- Source `Task.getTimeTillExecution`: `Math.max(executionTime - now, 0)`. -/
def Task.getTimeTillExecution (now : Int) (t : Task) : Int :=
  max (t.executionTime - now) 0

/-- The private state of a `TaskList`: the `#tasks` object (association list in
insertion order) and the `#timeline` array of id groups. -/
structure TaskListState where
  tasks : List (String × Task)
  timeline : List (List String)
deriving DecidableEq

namespace TaskList

def keys (s : TaskListState) : List String := s.tasks.map Prod.fst

/-- Source `taskCount()`. -/
def taskCount (s : TaskListState) : Nat := s.tasks.length

/-- Source `timelineLength()`. -/
def timelineLength (s : TaskListState) : Nat := s.timeline.length

/-- Upper bound used to build an id longer than every existing key. -/
def maxKeyLen (s : TaskListState) : Nat :=
  (s.tasks.map (fun p => p.1.length)).foldr max 0

/-- Source `#generateUniqueID`: the source draws random hex strings until one is not an
existing key.  Modelled deterministically by a string strictly longer than every
key, which satisfies the loop's postcondition (see `freshId_not_mem`). -/
def freshId (s : TaskListState) : String :=
  String.mk (List.replicate (maxKeyLen s + 1) 'x')

/-- The raw delay used as grouping key by `organizeTasks` in `src/TaskList.js`:
`task.getExectutionTime() - task.getCreationTime()`, not clamped. -/
def jsDelay (t : Task) : Int := t.executionTime - t.creationTime

/-- The grouping key of the variant `organizeTasks` (the repository's other
`TaskList` version): `Math.max(executionTime - creationTime, 0)`. -/
def clampedDelay (t : Task) : Int := max (t.executionTime - t.creationTime) 0

/-- One step of filling the `delays` object: `delays[delay]` is created as
`[id]` when absent and gets `id` pushed when present. -/
def dInsert (acc : List (Int × List String)) (d : Int) (id : String) :
    List (Int × List String) :=
  match acc with
  | [] => [(d, [id])]
  | (k, v) :: rest =>
      if k = d then (k, v ++ [id]) :: rest else (k, v) :: dInsert rest d id

/-- The `delays` object built by the first loop of `organizeTasks`, with the
grouping key abstracted (`jsDelay` for `src/TaskList.js`, `clampedDelay` for the
variant file). -/
def buildDelays (dfun : Task → Int) (ts : List (String × Task)) :
    List (Int × List String) :=
  ts.foldl (fun acc p => dInsert acc (dfun p.2) p.2.id) []

/-- Source `Math.min(...keys)` over a list of keys. -/
def listMin : List Int → Int
  | [] => 0
  | [k] => k
  | k :: rest => min k (listMin rest)

/-- The second loop of `organizeTasks`: repeatedly take the smallest delay key,
push its (non-empty) id list onto the new timeline and delete the key.  Each
iteration deletes one entry, so the initial number of entries bounds the number
of iterations; the bound is passed explicitly as fuel to keep the function
structurally recursive. -/
def extractStep : Nat → List (Int × List String) → List (List String)
  | 0, _ => []
  | fuel + 1, delays =>
      if delays.isEmpty then []
      else
        let m := listMin (delays.map Prod.fst)
        let ids := (delays.lookup m).getD []
        let rest := delays.eraseP (fun p => p.1 == m)
        (if ids.length > 0 then [ids] else []) ++ extractStep fuel rest

def extractLoop (delays : List (Int × List String)) : List (List String) :=
  extractStep delays.length delays

/-- Source `organizeTasks()` of `src/TaskList.js` (raw, unclamped delay keys). -/
def organizeTasks (s : TaskListState) : TaskListState :=
  { s with timeline := extractLoop (buildDelays jsDelay s.tasks) }

/-- Source `organizeTasks()` of the repository's variant `TaskList` file, whose delay
keys are clamped with `Math.max(_, 0)`. -/
def organizeTasksClamped (s : TaskListState) : TaskListState :=
  { s with timeline := extractLoop (buildDelays clampedDelay s.tasks) }

/-- Source `#addTask_prv(newTask)`: copy the task, assign a fresh id, store it. -/
def addTask_prv (s : TaskListState) (newTask : Task) : TaskListState :=
  let newId := freshId s
  { s with tasks := s.tasks ++ [(newId, { newTask.getCopy with id := newId })] }

/-- The `TaskList` constructor.  `none` inputs stand for arguments that are
`null` or not `instanceof Task`; both are skipped. -/
def new (tasks : List (Option Task)) : TaskListState :=
  let s := tasks.foldl
    (fun acc t? => match t? with
      | none => acc
      | some t => addTask_prv acc t)
    { tasks := [], timeline := [] }
  if taskCount s > 0 then organizeTasks s else s

/-- Source `addTasks(...newTasks)`: returns the `changed` flag and the new state. -/
def addTasks (s : TaskListState) (newTasks : List (Option Task)) :
    Bool × TaskListState :=
  let r := newTasks.foldl
    (fun (acc : Bool × TaskListState) t? =>
      match t? with
      | none => acc
      | some t => (true, addTask_prv acc.2 t))
    (false, s)
  if r.1 then (true, organizeTasks r.2) else (false, r.2)

/-- Source `removeTasks(...taskIds)`: delete each present id, reorganize if changed. -/
def removeTasks (s : TaskListState) (taskIds : List String) :
    Bool × TaskListState :=
  let r := taskIds.foldl
    (fun (acc : Bool × TaskListState) id =>
      if (acc.2.tasks.lookup id).isSome then
        (true, { acc.2 with tasks := acc.2.tasks.eraseP (fun p => p.1 == id) })
      else acc)
    (false, s)
  if r.1 then (true, organizeTasks r.2) else (false, r.2)

/-- Source `getNextTaskIds()`: a copy of `timeline[0]` when it is a non-empty array,
otherwise an empty array. -/
def getNextTaskIds (s : TaskListState) : List String :=
  match s.timeline.head? with
  | some g => if g.length > 0 then g else []
  | none => []

/-- Source `getTasks_id(...taskIds)`: copies of the stored tasks matching the ids,
missing ids skipped. -/
def getTasks_id (s : TaskListState) (taskIds : List String) : List Task :=
  taskIds.foldl
    (fun out id =>
      match s.tasks.lookup id with
      | some t => out ++ [t.getCopy]
      | none => out)
    []

/-- Source `getTasks_timelineIndex(index)` for an integer argument (a non-integer
argument is rejected earlier by a `TypeError` guard not modelled here).  The
range guard of the source is `index < 0 || index > this.timelineLength()`; an
id in the selected group that is not a stored key would make
`this.#tasks[id].getCopy()` throw a `TypeError`. -/
def getTasks_timelineIndex (s : TaskListState) (index : Int) :
    Except JsErr (List Task) :=
  if index < 0 ∨ index > (timelineLength s : Int) then .error .rangeError
  else
    let ids := (s.timeline.get? index.toNat).getD []
    ids.foldlM
      (fun out id =>
        match s.tasks.lookup id with
        | some t => pure (out ++ [t.getCopy])
        | none => .error .typeError)
      []

/-- Source `getNextTasks()`. -/
def getNextTasks (s : TaskListState) : Except JsErr (List Task) :=
  getTasks_timelineIndex s 0

/-- ASCII model of `String.prototype.toLowerCase`. -/
def strToLower (s : String) : String := String.map Char.toLower s

/-- Model of `String.prototype.includes` (substring test). -/
def strIncludes (hay sub : String) : Bool :=
  (List.range (hay.length + 1)).any (fun i => sub.isPrefixOf (hay.drop i))

/-- Source `findTasksByName(taskName, caseSensitive)` of `src/TaskList.js`.  A stored
task whose name is the `null` default makes `element.getName().toLowerCase()`
(case-insensitive mode) or `searchTarget.includes(...)` (case-sensitive mode,
where `searchTarget` is `null`) throw a `TypeError`. -/
def findTasksByName (s : TaskListState) (taskName : String) (caseSensitive : Bool) :
    Except JsErr TaskListState := do
  let searchVal := if caseSensitive then taskName else strToLower taskName
  let found ← s.tasks.foldlM
    (fun (acc : List (String × Task)) p =>
      match p.2.name with
      | none => .error .typeError
      | some nm =>
          let searchTarget := if caseSensitive then nm else strToLower nm
          if strIncludes searchTarget searchVal then
            pure (acc ++ [(p.2.id, p.2.getCopy)])
          else pure acc)
    []
  pure (organizeTasks { tasks := found, timeline := [] })

end TaskList

/-- The mutations the timeline invariants quantify over: `addTasks` and
`removeTasks` calls with arbitrary arguments. -/
inductive TLOp where
  | add (newTasks : List (Option Task))
  | remove (taskIds : List String)

def applyOp (s : TaskListState) : TLOp → TaskListState
  | .add ts => (TaskList.addTasks s ts).2
  | .remove ids => (TaskList.removeTasks s ids).2

/-- A sequence of mutations applied to an initially empty `TaskList`. -/
def runOps (ops : List TLOp) : TaskListState :=
  ops.foldl applyOp (TaskList.new [])

/-- The state of the `Agenda` singleton: its `TaskList`, the task-tracker
fields `#nextTasksIds`, `#nextExecutionTime`, `#activeTimerId`, plus
`timerCounter`, the host runtime's source of fresh `setTimeout` handles (it
increases exactly when a timer is armed, so it doubles as a rearm counter). -/
structure AgendaState where
  taskList : TaskListState
  nextTasksIds : Option (List String)
  nextExecutionTime : Option Int
  activeTimerId : Option Nat
  timerCounter : Nat
deriving DecidableEq

namespace Agenda

/-- Source `#clearTaskTracker()`: clears the tracker fields and cancels the timer. -/
def clearTaskTracker (s : AgendaState) : AgendaState :=
  { s with nextTasksIds := none, nextExecutionTime := none, activeTimerId := none }

/-- Source `#setTaskTracker()`: fetch the registry's next ids; when non-empty look up
a sample task for the ids' head, record its execution time and the ids, and arm
a fresh timer.  `none` is the `TypeError` thrown when the sample lookup yields
no task (`getTasks_id(...)[0]` is `undefined`). -/
def setTaskTracker (now : Int) (s : AgendaState) : Option AgendaState :=
  let newNextTaskIds := TaskList.getNextTaskIds s.taskList
  match newNextTaskIds with
  | [] => some s
  | id0 :: _ =>
      match (TaskList.getTasks_id s.taskList [id0]).head? with
      | none => none
      | some sampleTask =>
          let _delay := sampleTask.getTimeTillExecution now
          some { s with
            nextExecutionTime := some sampleTask.executionTime,
            nextTasksIds := some newNextTaskIds,
            activeTimerId := some s.timerCounter,
            timerCounter := s.timerCounter + 1 }

/-- Source `#checkTaskTracker()`: compare the tracked ids with the registry's next
ids; when lengths match and no tracked id is missing from the registry's list,
do nothing; otherwise clear the tracker and re-derive it. -/
def checkTaskTracker (now : Int) (s : AgendaState) : Option AgendaState :=
  let idsThem := TaskList.getNextTaskIds s.taskList
  let idsMine := match s.nextTasksIds with
    | some l => l
    | none => []
  let changed :=
    if idsMine.length = idsThem.length then
      idsMine.any (fun idMine => ! idsThem.contains idMine)
    else true
  if changed then setTaskTracker now (clearTaskTracker s) else some s

/-- Source `new Date(x)` for `x` either `null` (the tracker cleared) or a `Date`:
`new Date(null)` is the epoch, time value `0`. -/
def newDateFromNullable : Option Int → Int
  | none => 0
  | some t => t

/-- Source `getNextExectutionTime()` [sic]: always returns a `Date` object
(`some` time value at the JS boundary, never `undefined`/`null`). -/
def getNextExectutionTime (s : AgendaState) : Option Int :=
  some (newDateFromNullable s.nextExecutionTime)

/-- Source `getTaskCount()`. -/
def getTaskCount (s : AgendaState) : Nat := TaskList.taskCount s.taskList

/-- Source `String(array)` coercion applied when an array is used as a property key:
the elements joined with commas. -/
def arrayToPropertyKey (ids : List String) : String := String.intercalate "," ids

/-- Source `removeTask(...taskIds)`: the source passes the rest-parameter array itself
(not spread) to `TaskList.removeTasks`, so the registry sees a single "id": the
array coerced to a property key.  Returns the remaining count and the state. -/
def removeTask (now : Int) (s : AgendaState) (taskIds : List String) :
    Option (Nat × AgendaState) :=
  let r := TaskList.removeTasks s.taskList [arrayToPropertyKey taskIds]
  let s1 : AgendaState := { s with taskList := r.2 }
  if r.1 then
    (checkTaskTracker now s1).map (fun s2 => (getTaskCount s2, s2))
  else some (getTaskCount s1, s1)

/-- Source `addTasks(...newTasks)` (arguments spread correctly into the registry). -/
def addTasks (now : Int) (s : AgendaState) (newTasks : List (Option Task)) :
    Option (Nat × AgendaState) :=
  let r := TaskList.addTasks s.taskList newTasks
  let s1 : AgendaState := { s with taskList := r.2 }
  if r.1 then
    (checkTaskTracker now s1).map (fun s2 => (getTaskCount s2, s2))
  else some (getTaskCount s1, s1)

end Agenda

/-!
Heap model for the defensive-copy claim.  In JavaScript `Date` objects are
mutable heap references; `Task.getCopy` copies the reference fields
`#creationTime` and `#executionTime` without cloning the `Date` objects, while
`[...this.#payloadArguments]` does allocate a fresh array.  `TaskH` makes the
references explicit: date cells live in a store `List Int` indexed by `Nat`
references. -/

/-- A task whose date fields are references into a date store. -/
structure TaskH where
  id : String
  name : Option String
  description : Option String
  creationTimeRef : Nat
  executionTimeRef : Nat
  payloadTag : Nat
  payloadArgs : List Int
deriving DecidableEq

/-- Source `Task.getCopy` at the reference level: every field is copied, the two
`Date` references are shared (not cloned), and the argument array is fresh
(its copy is value-identical here). -/
def TaskH.getCopy (t : TaskH) : TaskH :=
  { id := t.id, name := t.name, description := t.description,
    creationTimeRef := t.creationTimeRef,
    executionTimeRef := t.executionTimeRef,
    payloadTag := t.payloadTag,
    payloadArgs := t.payloadArgs }

/-- Source `dateObj.getTime()` through the store. -/
def readDate (store : List Int) (ref : Nat) : Int := (store.get? ref).getD 0

/-- Source `dateObj.setTime(v)` through the store. -/
def writeDate (store : List Int) (ref : Nat) (v : Int) : List Int :=
  store.set ref v

/-- Source `getTasks_id` over heap tasks (same shape as `TaskList.getTasks_id`). -/
def getTasksH_id (tasks : List (String × TaskH)) (taskIds : List String) :
    List TaskH :=
  taskIds.foldl
    (fun out id =>
      match tasks.lookup id with
      | some t => out ++ [t.getCopy]
      | none => out)
    []

/-! Concrete fixtures used by the counterexample and evaluation theorems. -/

/-- A task created before its execution time has passed backwards: raw delay
`5 - 10 = -5`, clamped delay `0`. -/
def taskNeg : Task :=
  { id := "a", name := some "A", description := none,
    creationTime := 10, executionTime := 5, payloadTag := 0, payloadArgs := [] }

/-- A task with raw delay `0`. -/
def taskZero : Task :=
  { id := "b", name := some "B", description := none,
    creationTime := 0, executionTime := 0, payloadTag := 0, payloadArgs := [] }

/-- Registry holding `taskNeg` and `taskZero`, before reorganization. -/
def negZeroState : TaskListState :=
  { tasks := [("a", taskNeg), ("b", taskZero)], timeline := [] }

/-- A stored task with id `"aa"`, delay 10. -/
def taskAA : Task :=
  { id := "aa", name := some "Alpha", description := none,
    creationTime := 0, executionTime := 10, payloadTag := 0, payloadArgs := [] }

/-- A stored task with id `"bb"`, delay 20. -/
def taskBB : Task :=
  { id := "bb", name := some "Beta", description := none,
    creationTime := 0, executionTime := 20, payloadTag := 0, payloadArgs := [] }

/-- An organized registry holding `taskAA` and `taskBB`. -/
def twoTaskState : TaskListState :=
  { tasks := [("aa", taskAA), ("bb", taskBB)], timeline := [["aa"], ["bb"]] }

/-- A registry holding only `taskAA` (timeline length 1). -/
def oneTaskState : TaskListState :=
  { tasks := [("aa", taskAA)], timeline := [["aa"]] }

/-- An agenda tracking the first group of `twoTaskState`. -/
def twoTaskAgenda : AgendaState :=
  { taskList := twoTaskState, nextTasksIds := some ["aa"],
    nextExecutionTime := some 10, activeTimerId := some 0, timerCounter := 1 }

/-- An agenda with an empty registry and a cleared tracker. -/
def idleAgenda : AgendaState :=
  { taskList := { tasks := [], timeline := [] }, nextTasksIds := none,
    nextExecutionTime := none, activeTimerId := none, timerCounter := 0 }

/-- An agenda whose tracker records execution time 42. -/
def trackedAgenda : AgendaState :=
  { taskList := oneTaskState, nextTasksIds := some ["aa"],
    nextExecutionTime := some 42, activeTimerId := some 3, timerCounter := 4 }

/-- An agenda over `twoTaskState` whose tracker is stale (cleared), so the
first reconciliation run re-arms the timer. -/
def staleAgenda : AgendaState :=
  { taskList := twoTaskState, nextTasksIds := none,
    nextExecutionTime := none, activeTimerId := none, timerCounter := 5 }

/-- The state produced by reconciling `staleAgenda`: the first group is
tracked and timer handle 5 was armed. -/
def reconciledAgenda : AgendaState :=
  { taskList := twoTaskState, nextTasksIds := some ["aa"],
    nextExecutionTime := some 10, activeTimerId := some 5, timerCounter := 6 }

/-- A stored task whose name was never assigned (the `null` default). -/
def namelessTask : Task :=
  { id := "aa", name := none, description := none,
    creationTime := 0, executionTime := 10, payloadTag := 0, payloadArgs := [] }

/-- A registry holding `namelessTask`. -/
def namelessState : TaskListState :=
  { tasks := [("aa", namelessTask)], timeline := [["aa"]] }

/-- A heap task whose `Date` fields are the cells 0 and 1 of `dateStore100`. -/
def heapTask : TaskH :=
  { id := "aa", name := some "Alpha", description := none,
    creationTimeRef := 0, executionTimeRef := 1, payloadTag := 0, payloadArgs := [] }

/-- Date store: cell 0 holds time value 100 (creation), cell 1 holds 200. -/
def dateStore100 : List Int := [100, 200]

/-- Registry (task mapping) holding `heapTask`. -/
def heapRegistry : List (String × TaskH) := [("aa", heapTask)]

/-! Specification predicates. -/

/-- Well-formedness of the task mapping: each stored task's `id` field equals
its key (maintained by `#addTask_prv` via `setId`), and keys are distinct (a JS
object cannot have duplicate keys). -/
def WFt (s : TaskListState) : Prop :=
  (∀ p ∈ s.tasks, p.2.id = p.1) ∧ (s.tasks.map Prod.fst).Nodup

instance : DecidablePred WFt := fun s => by
  unfold WFt; infer_instance

/-- Every timeline group is a non-empty id list. -/
def GroupsNonempty (s : TaskListState) : Prop :=
  ∀ g ∈ s.timeline, g ≠ []

/-- The timeline exactly partitions the stored id set: the concatenation of
its groups is a permutation of the mapping's keys. -/
def TimelinePartitions (s : TaskListState) : Prop :=
  s.timeline.flatten.Perm (s.tasks.map Prod.fst)

/-- Every id appearing in a timeline group is a stored key (needed for the
sample-task lookup of `#setTaskTracker` to succeed). -/
def AgendaWF (s : AgendaState) : Prop :=
  ∀ id ∈ TaskList.getNextTaskIds s.taskList, (s.taskList.tasks.lookup id).isSome

instance : DecidablePred AgendaWF := fun s => by
  unfold AgendaWF; infer_instance

/-- The concatenation of the id lists of a `delays` object. -/
def joinIds (l : List (Int × List String)) : List String :=
  (l.map Prod.snd).flatten

/-- The keys of a `delays` object. -/
def dkeys (l : List (Int × List String)) : List Int := l.map Prod.fst

/-- Source `id` is filed under delay `d` in the `delays` object `l`. -/
def MemDelay (l : List (Int × List String)) (d : Int) (id : String) : Prop :=
  ∃ v, (d, v) ∈ l ∧ id ∈ v

/-- The invariant maintained by every `TaskList` mutation. -/
def StateInv (s : TaskListState) : Prop :=
  WFt s ∧ TimelinePartitions s ∧ GroupsNonempty s

end TaskTimer

/-! # Theorems -/

namespace TaskTimer

/-! ## Basic lemmas about id generation and the delays object -/

theorem le_foldr_max (n : Nat) (l : List Nat) (h : n ∈ l) : n ≤ l.foldr max 0 := by
  induction l with
  | nil => cases h
  | cons a l ih =>
      rcases List.mem_cons.1 h with rfl | h2
      · exact Nat.le_max_left _ _
      · exact Nat.le_trans (ih h2) (Nat.le_max_right _ _)

/-- The generated id is not an existing key: it is strictly longer than every
key, which is the postcondition of the source's generation loop. -/
theorem freshId_not_mem (s : TaskListState) : TaskList.freshId s ∉ TaskList.keys s := by
  intro hmem
  rcases List.mem_map.1 hmem with ⟨p, hp, hfresh⟩
  have hlen : p.1.length ≤ TaskList.maxKeyLen s :=
    le_foldr_max _ _ (List.mem_map.2 ⟨p, hp, rfl⟩)
  have hfl : (TaskList.freshId s).length = TaskList.maxKeyLen s + 1 := by
    simp [TaskList.freshId]
  rw [hfresh] at hlen
  omega

theorem dInsert_nil (d : Int) (id : String) :
    TaskList.dInsert [] d id = [(d, [id])] := rfl

theorem dInsert_cons (k : Int) (v : List String) (rest : List (Int × List String))
    (d : Int) (id : String) :
    TaskList.dInsert ((k, v) :: rest) d id =
      if k = d then (k, v ++ [id]) :: rest else (k, v) :: TaskList.dInsert rest d id := rfl

theorem joinIds_nil : joinIds [] = [] := rfl

theorem joinIds_cons (k : Int) (v : List String) (rest : List (Int × List String)) :
    joinIds ((k, v) :: rest) = v ++ joinIds rest := rfl

theorem joinIds_append (l₁ l₂ : List (Int × List String)) :
    joinIds (l₁ ++ l₂) = joinIds l₁ ++ joinIds l₂ := by
  simp [joinIds]

theorem joinIds_dInsert (acc : List (Int × List String)) (d : Int) (id : String) :
    (joinIds (TaskList.dInsert acc d id)).Perm (joinIds acc ++ [id]) := by
  induction acc with
  | nil => simp [dInsert_nil, joinIds]
  | cons p rest ih =>
      obtain ⟨k, v⟩ := p
      rw [dInsert_cons]
      by_cases hk : k = d
      · rw [if_pos hk, joinIds_cons, joinIds_cons]
        simpa [List.append_assoc] using
          List.Perm.append_left v (@List.perm_append_comm _ [id] (joinIds rest))
      · rw [if_neg hk, joinIds_cons, joinIds_cons]
        simpa [List.append_assoc] using List.Perm.append_left v ih

theorem dkeys_nil : dkeys [] = [] := rfl

theorem dkeys_cons (k : Int) (v : List String) (rest : List (Int × List String)) :
    dkeys ((k, v) :: rest) = k :: dkeys rest := rfl

theorem dkeys_dInsert (acc : List (Int × List String)) (d : Int) (id : String) :
    dkeys (TaskList.dInsert acc d id) =
      if d ∈ dkeys acc then dkeys acc else dkeys acc ++ [d] := by
  induction acc with
  | nil => simp [dInsert_nil, dkeys]
  | cons p rest ih =>
      obtain ⟨k, v⟩ := p
      rw [dInsert_cons]
      by_cases hk : k = d
      · subst hk
        simp [dkeys_cons]
      · have hne : ¬ d = k := fun h => hk h.symm
        rw [if_neg hk, dkeys_cons, dkeys_cons, ih]
        by_cases hd : d ∈ dkeys rest
        · simp [List.mem_cons, hne, hd]
        · simp [List.mem_cons, hne, hd]

theorem dkeys_dInsert_nodup (acc : List (Int × List String)) (d : Int) (id : String)
    (h : (dkeys acc).Nodup) : (dkeys (TaskList.dInsert acc d id)).Nodup := by
  rw [dkeys_dInsert]
  by_cases hd : d ∈ dkeys acc
  · simpa [hd]
  · simp only [hd, if_false]
    refine List.nodup_append.2 ⟨h, List.nodup_singleton d, ?_⟩
    intro x hx hx2
    rcases List.mem_singleton.1 hx2 with rfl
    exact hd hx

theorem dInsert_vals_nonempty (acc : List (Int × List String)) (d : Int) (id : String)
    (h : ∀ p ∈ acc, p.2 ≠ ([] : List String)) :
    ∀ p ∈ TaskList.dInsert acc d id, p.2 ≠ ([] : List String) := by
  induction acc with
  | nil =>
      intro p hp
      rw [dInsert_nil] at hp
      rcases List.mem_singleton.1 hp with rfl
      simp
  | cons q rest ih =>
      obtain ⟨k, v⟩ := q
      intro p hp
      rw [dInsert_cons] at hp
      by_cases hk : k = d
      · rw [if_pos hk] at hp
        rcases List.mem_cons.1 hp with rfl | hp
        · simp
        · exact h p (List.mem_cons_of_mem _ hp)
      · rw [if_neg hk] at hp
        rcases List.mem_cons.1 hp with rfl | hp
        · exact h (k, v) (List.mem_cons_self _ _)
        · exact ih (fun q hq => h q (List.mem_cons_of_mem _ hq)) p hp

theorem memDelay_nil (d : Int) (id : String) : ¬ MemDelay [] d id := by
  rintro ⟨v, hv, _⟩
  cases hv

theorem memDelay_cons (k : Int) (v : List String) (rest : List (Int × List String))
    (d : Int) (id : String) :
    MemDelay ((k, v) :: rest) d id ↔ (d = k ∧ id ∈ v) ∨ MemDelay rest d id := by
  constructor
  · rintro ⟨w, hw, hid⟩
    rcases List.mem_cons.1 hw with heq | hw2
    · rcases Prod.mk.injEq _ _ _ _ ▸ heq with ⟨h1, h2⟩
      subst h1
      subst h2
      exact Or.inl ⟨rfl, hid⟩
    · exact Or.inr ⟨w, hw2, hid⟩
  · rintro (⟨rfl, hid⟩ | ⟨w, hw, hid⟩)
    · exact ⟨v, List.mem_cons_self _ _, hid⟩
    · exact ⟨w, List.mem_cons_of_mem _ hw, hid⟩

theorem memDelay_dInsert (acc : List (Int × List String)) (dn : Int) (idn : String)
    (d : Int) (id : String) :
    MemDelay (TaskList.dInsert acc dn idn) d id ↔
      MemDelay acc d id ∨ (d = dn ∧ id = idn) := by
  induction acc with
  | nil =>
      rw [dInsert_nil]
      simp only [memDelay_cons, List.mem_singleton]
      constructor
      · rintro (⟨rfl, hid⟩ | h)
        · exact Or.inr ⟨rfl, hid⟩
        · exact absurd h (memDelay_nil _ _)
      · rintro (h | ⟨rfl, rfl⟩)
        · exact absurd h (memDelay_nil _ _)
        · exact Or.inl ⟨rfl, rfl⟩
  | cons q rest ih =>
      obtain ⟨k, v⟩ := q
      rw [dInsert_cons]
      by_cases hk : k = dn
      · subst hk
        rw [if_pos rfl]
        simp only [memDelay_cons, List.mem_append, List.mem_singleton]
        tauto
      · rw [if_neg hk]
        simp only [memDelay_cons, ih]
        tauto

/-! ## Lemmas about the delays object built by organizeTasks -/

theorem joinIds_buildDelays_go (dfun : Task → Int) (ts : List (String × Task)) :
    ∀ acc : List (Int × List String),
      (joinIds (ts.foldl (fun acc p => TaskList.dInsert acc (dfun p.2) p.2.id) acc)).Perm
        (joinIds acc ++ ts.map (fun p => p.2.id)) := by
  induction ts with
  | nil => intro acc; simp
  | cons p rest ih =>
      intro acc
      simp only [List.foldl_cons, List.map_cons]
      refine (ih _).trans ?_
      have h1 : (joinIds (TaskList.dInsert acc (dfun p.2) p.2.id)).Perm
          (joinIds acc ++ [p.2.id]) := joinIds_dInsert _ _ _
      refine (h1.append_right _).trans ?_
      simp [List.append_assoc]

theorem joinIds_buildDelays (dfun : Task → Int) (ts : List (String × Task)) :
    (joinIds (TaskList.buildDelays dfun ts)).Perm (ts.map (fun p => p.2.id)) := by
  have h := joinIds_buildDelays_go dfun ts []
  simpa [joinIds_nil, TaskList.buildDelays] using h

theorem dkeys_buildDelays_nodup_go (dfun : Task → Int) (ts : List (String × Task)) :
    ∀ acc : List (Int × List String), (dkeys acc).Nodup →
      (dkeys (ts.foldl (fun acc p => TaskList.dInsert acc (dfun p.2) p.2.id) acc)).Nodup := by
  induction ts with
  | nil => intro acc h; simpa
  | cons p rest ih =>
      intro acc h
      simp only [List.foldl_cons]
      exact ih _ (dkeys_dInsert_nodup _ _ _ h)

theorem dkeys_buildDelays_nodup (dfun : Task → Int) (ts : List (String × Task)) :
    (dkeys (TaskList.buildDelays dfun ts)).Nodup :=
  dkeys_buildDelays_nodup_go dfun ts [] (by simp [dkeys_nil])

theorem buildDelays_vals_nonempty_go (dfun : Task → Int) (ts : List (String × Task)) :
    ∀ acc : List (Int × List String), (∀ p ∈ acc, p.2 ≠ ([] : List String)) →
      ∀ p ∈ ts.foldl (fun acc p => TaskList.dInsert acc (dfun p.2) p.2.id) acc,
        p.2 ≠ ([] : List String) := by
  induction ts with
  | nil => intro acc h; simp only [List.foldl_nil]; exact h
  | cons p rest ih =>
      intro acc h
      simp only [List.foldl_cons]
      exact ih _ (dInsert_vals_nonempty _ _ _ h)

theorem buildDelays_vals_nonempty (dfun : Task → Int) (ts : List (String × Task)) :
    ∀ p ∈ TaskList.buildDelays dfun ts, p.2 ≠ ([] : List String) :=
  buildDelays_vals_nonempty_go dfun ts [] (by intro p hp; cases hp)

theorem memDelay_buildDelays_go (dfun : Task → Int) (ts : List (String × Task))
    (d : Int) (id : String) :
    ∀ acc : List (Int × List String),
      (MemDelay (ts.foldl (fun acc p => TaskList.dInsert acc (dfun p.2) p.2.id) acc) d id ↔
        MemDelay acc d id ∨ ∃ k t, (k, t) ∈ ts ∧ t.id = id ∧ dfun t = d) := by
  induction ts with
  | nil =>
      intro acc
      simp
  | cons p rest ih =>
      intro acc
      simp only [List.foldl_cons]
      rw [ih]
      rw [memDelay_dInsert]
      constructor
      · rintro ((h | ⟨hd, hid⟩) | ⟨k, t, ht, hid, hdf⟩)
        · exact Or.inl h
        · exact Or.inr ⟨p.1, p.2, by simp, hid.symm, hd.symm⟩
        · exact Or.inr ⟨k, t, List.mem_cons_of_mem _ ht, hid, hdf⟩
      · rintro (h | ⟨k, t, ht, hid, hdf⟩)
        · exact Or.inl (Or.inl h)
        · rcases List.mem_cons.1 ht with heq | ht2
          · rcases Prod.mk.injEq _ _ _ _ ▸ heq with ⟨h1, h2⟩
            subst h2
            exact Or.inl (Or.inr ⟨hdf.symm, hid.symm⟩)
          · exact Or.inr ⟨k, t, ht2, hid, hdf⟩

theorem memDelay_buildDelays (dfun : Task → Int) (ts : List (String × Task))
    (d : Int) (id : String) :
    MemDelay (TaskList.buildDelays dfun ts) d id ↔
      ∃ k t, (k, t) ∈ ts ∧ t.id = id ∧ dfun t = d := by
  have h := memDelay_buildDelays_go dfun ts d id []
  rw [TaskList.buildDelays]
  rw [h]
  simp [memDelay_nil]

/-! ## Lemmas about the extraction loop of organizeTasks -/

theorem listMin_cons_cons (k a : Int) (t : List Int) :
    TaskList.listMin (k :: a :: t) = min k (TaskList.listMin (a :: t)) := rfl

theorem listMin_single (k : Int) : TaskList.listMin [k] = k := rfl

theorem listMin_mem : ∀ (l : List Int), l ≠ [] → TaskList.listMin l ∈ l := by
  intro l
  induction l with
  | nil => intro h; exact absurd rfl h
  | cons k t ih =>
      intro _
      cases t with
      | nil => simp [listMin_single]
      | cons a t2 =>
          rw [listMin_cons_cons]
          rcases le_total k (TaskList.listMin (a :: t2)) with h | h
          · rw [min_eq_left h]; exact List.mem_cons_self _ _
          · rw [min_eq_right h]
            exact List.mem_cons_of_mem _ (ih (by simp))

theorem listMin_le : ∀ (l : List Int), ∀ k ∈ l, TaskList.listMin l ≤ k := by
  intro l
  induction l with
  | nil => intro k hk; cases hk
  | cons b t ih =>
      intro k hk
      cases t with
      | nil =>
          rcases List.mem_singleton.1 hk with rfl
          simp [listMin_single]
      | cons a t2 =>
          rw [listMin_cons_cons]
          rcases List.mem_cons.1 hk with rfl | hk2
          · exact min_le_left _ _
          · exact le_trans (min_le_right _ _) (ih k hk2)

theorem lookup_split (l₁ l₂ : List (Int × List String)) (m : Int) (v : List String)
    (h : ∀ b ∈ l₁, b.1 ≠ m) : (l₁ ++ (m, v) :: l₂).lookup m = some v := by
  induction l₁ with
  | nil => simp [List.lookup_cons]
  | cons b rest ih =>
      obtain ⟨k, w⟩ := b
      have hb : k ≠ m := h (k, w) (List.mem_cons_self _ _)
      have hbeq : (m == k) = false := beq_eq_false_iff_ne.2 (fun hh => hb hh.symm)
      simp only [List.cons_append, List.lookup_cons, hbeq]
      exact ih (fun b hb2 => h b (List.mem_cons_of_mem _ hb2))

theorem lookup_skip (l₁ l₂ : List (Int × List String)) (m : Int) (v : List String)
    (d : Int) (hd : d ≠ m) : (l₁ ++ (m, v) :: l₂).lookup d = (l₁ ++ l₂).lookup d := by
  induction l₁ with
  | nil =>
      have hbeq : (d == m) = false := beq_eq_false_iff_ne.2 hd
      simp [List.lookup_cons, hbeq]
  | cons b rest ih =>
      obtain ⟨k, w⟩ := b
      simp only [List.cons_append, List.lookup_cons]
      cases hdk : d == k
      · simpa [hdk] using ih
      · simp [hdk]

theorem lookup_mem (l : List (Int × List String)) (d : Int) (v : List String)
    (h : l.lookup d = some v) : (d, v) ∈ l := by
  induction l with
  | nil => cases h
  | cons b rest ih =>
      obtain ⟨k, w⟩ := b
      rw [List.lookup_cons] at h
      cases hdk : d == k with
      | true =>
          rw [hdk] at h
          have hk : d = k := eq_of_beq hdk
          cases h
          subst hk
          exact List.mem_cons_self _ _
      | false =>
          rw [hdk] at h
          exact List.mem_cons_of_mem _ (ih h)

theorem lookup_eq_of_nodup (l : List (Int × List String)) (d : Int) (v : List String)
    (hnd : (dkeys l).Nodup) (hmem : (d, v) ∈ l) : l.lookup d = some v := by
  induction l with
  | nil => cases hmem
  | cons b rest ih =>
      obtain ⟨k, w⟩ := b
      rw [dkeys_cons, List.nodup_cons] at hnd
      rcases List.mem_cons.1 hmem with heq | hmem2
      · rcases Prod.mk.injEq _ _ _ _ ▸ heq with ⟨h1, h2⟩
        subst h1; subst h2
        simp [List.lookup_cons]
      · have hdk : d ≠ k := by
          intro hh
          subst hh
          exact hnd.1 (List.mem_map.2 ⟨(d, v), hmem2, rfl⟩)
        have hbeq : (d == k) = false := beq_eq_false_iff_ne.2 hdk
        simp only [List.lookup_cons, hbeq]
        exact ih hnd.2 hmem2

/-- With distinct keys, membership in the looked-up group is exactly
`MemDelay`. -/
theorem mem_lookup_iff (l : List (Int × List String)) (d : Int) (id : String)
    (hnd : (dkeys l).Nodup) :
    id ∈ (l.lookup d).getD [] ↔ MemDelay l d id := by
  constructor
  · intro h
    cases hl : l.lookup d with
    | none => rw [hl] at h; cases h
    | some v =>
        rw [hl] at h
        exact ⟨v, lookup_mem l d v hl, h⟩
  · rintro ⟨v, hv, hid⟩
    rw [lookup_eq_of_nodup l d v hnd hv]
    exact hid

theorem extractStep_zero (l : List (Int × List String)) :
    TaskList.extractStep 0 l = [] := rfl

theorem extractStep_succ (fuel : Nat) (l : List (Int × List String)) :
    TaskList.extractStep (fuel + 1) l =
      if l.isEmpty then []
      else
        (if ((l.lookup (TaskList.listMin (l.map Prod.fst))).getD []).length > 0
          then [(l.lookup (TaskList.listMin (l.map Prod.fst))).getD []] else []) ++
        TaskList.extractStep fuel
          (l.eraseP (fun p => p.1 == TaskList.listMin (l.map Prod.fst))) := rfl

theorem extractStep_groups_nonempty :
    ∀ (fuel : Nat) (l : List (Int × List String)),
      ∀ g ∈ TaskList.extractStep fuel l, g ≠ ([] : List String) := by
  intro fuel
  induction fuel with
  | zero => intro l g hg; rw [extractStep_zero] at hg; cases hg
  | succ fuel ih =>
      intro l g hg
      rw [extractStep_succ] at hg
      by_cases he : l.isEmpty = true
      · rw [if_pos he] at hg; cases hg
      · rw [if_neg he] at hg
        rcases List.mem_append.1 hg with hg1 | hg2
        · by_cases hlen : ((l.lookup (TaskList.listMin (l.map Prod.fst))).getD []).length > 0
          · rw [if_pos hlen] at hg1
            rcases List.mem_singleton.1 hg1 with rfl
            exact List.length_pos.1 hlen
          · rw [if_neg hlen] at hg1; cases hg1
        · exact ih _ g hg2

theorem dkeys_def (l : List (Int × List String)) : dkeys l = l.map Prod.fst := rfl

theorem perm_append_middle {α : Type} (v A B : List α) :
    (A ++ (v ++ B)).Perm (v ++ (A ++ B)) := by
  have h1 : A ++ (v ++ B) = (A ++ v) ++ B := by simp
  have h2 : v ++ (A ++ B) = (v ++ A) ++ B := by simp
  rw [h1, h2]
  exact List.Perm.append_right B List.perm_append_comm

/-- The extraction loop emits exactly the ids of the delays object, in some
order. -/
theorem extractStep_flatten_perm :
    ∀ (fuel : Nat) (l : List (Int × List String)), l.length ≤ fuel →
      ((TaskList.extractStep fuel l).flatten).Perm (joinIds l) := by
  intro fuel
  induction fuel with
  | zero =>
      intro l hlen
      have : l = [] := List.length_eq_zero.1 (Nat.le_zero.1 hlen)
      subst this
      simp [extractStep_zero, joinIds_nil]
  | succ fuel ih =>
      intro l hlen
      by_cases he : l = []
      · subst he
        simp [extractStep_succ, joinIds_nil]
      · have hne : ¬ (l.isEmpty = true) := by simp [List.isEmpty_iff, he]
        set m := TaskList.listMin (l.map Prod.fst) with hmdef
        have hm : m ∈ l.map Prod.fst :=
          listMin_mem _ (by simpa [List.map_eq_nil_iff] using he)
        obtain ⟨p0, hp0, hp0k⟩ := List.mem_map.1 hm
        have hp0beq : (p0.1 == m) = true := by simp [hp0k]
        obtain ⟨a, l₁, l₂, hl₁, ha, hsplit, herase⟩ :=
          @List.exists_of_eraseP _ (fun q => q.1 == m) l p0 hp0 hp0beq
        obtain ⟨ka, va⟩ := a
        have ham : ka = m := by simpa using ha
        subst ham
        have hl₁m : ∀ b ∈ l₁, b.1 ≠ m := by
          intro b hb
          have := hl₁ b hb
          simpa using this
        have hlook : l.lookup m = some va := by
          rw [hsplit]
          exact lookup_split l₁ l₂ m va hl₁m
        have hlenrest : (l₁ ++ l₂).length ≤ fuel := by
          have := congrArg List.length hsplit
          simp only [List.length_append, List.length_cons] at this
          simp only [List.length_append]
          omega
        have hstep : TaskList.extractStep (fuel + 1) l =
            (if va.length > 0 then [va] else []) ++
              TaskList.extractStep fuel (l₁ ++ l₂) := by
          rw [extractStep_succ, if_neg hne, ← hmdef, hlook, herase]
          rfl
        have hjoin : joinIds l = joinIds l₁ ++ (va ++ joinIds l₂) := by
          rw [hsplit, joinIds_append, joinIds_cons]
        rw [hstep, hjoin]
        by_cases hva : va.length > 0
        · rw [if_pos hva]
          have hIH := ih (l₁ ++ l₂) hlenrest
          rw [joinIds_append] at hIH
          have h1 : ([va] ++ TaskList.extractStep fuel (l₁ ++ l₂)).flatten =
              va ++ (TaskList.extractStep fuel (l₁ ++ l₂)).flatten := by simp
          rw [h1]
          exact (hIH.append_left va).trans
            (perm_append_middle va (joinIds l₁) (joinIds l₂)).symm
        · rw [if_neg hva]
          have hva2 : va = [] := List.length_eq_zero.1 (by omega)
          subst hva2
          have hIH := ih (l₁ ++ l₂) hlenrest
          rw [joinIds_append] at hIH
          simpa using hIH

/-- With distinct keys and non-empty groups, the extraction loop lists the
groups in strictly ascending key order: its result is the key list `ds`
(a strictly increasing enumeration of the delays object's keys) mapped through
lookup. -/
theorem extractStep_spec :
    ∀ (fuel : Nat) (l : List (Int × List String)), l.length ≤ fuel →
      (dkeys l).Nodup → (∀ p ∈ l, p.2 ≠ ([] : List String)) →
      ∃ ds : List Int, ds.Chain' (· < ·) ∧ ds.Perm (dkeys l) ∧
        TaskList.extractStep fuel l = ds.map (fun d => (l.lookup d).getD []) := by
  intro fuel
  induction fuel with
  | zero =>
      intro l hlen _ _
      have : l = [] := List.length_eq_zero.1 (Nat.le_zero.1 hlen)
      subst this
      exact ⟨[], List.chain'_nil, by simp [dkeys_nil], by simp [extractStep_zero]⟩
  | succ fuel ih =>
      intro l hlen hnd hvals
      by_cases he : l = []
      · subst he
        exact ⟨[], List.chain'_nil, by simp [dkeys_nil], by simp [extractStep_succ]⟩
      · have hne : ¬ (l.isEmpty = true) := by simp [List.isEmpty_iff, he]
        set m := TaskList.listMin (l.map Prod.fst) with hmdef
        have hm : m ∈ l.map Prod.fst :=
          listMin_mem _ (by simpa [List.map_eq_nil_iff] using he)
        obtain ⟨p0, hp0, hp0k⟩ := List.mem_map.1 hm
        have hp0beq : (p0.1 == m) = true := by simp [hp0k]
        obtain ⟨a, l₁, l₂, hl₁, ha, hsplit, herase⟩ :=
          @List.exists_of_eraseP _ (fun q => q.1 == m) l p0 hp0 hp0beq
        obtain ⟨ka, va⟩ := a
        have ham : ka = m := by simpa using ha
        subst ham
        have hl₁m : ∀ b ∈ l₁, b.1 ≠ m := by
          intro b hb
          have := hl₁ b hb
          simpa using this
        have hlook : l.lookup m = some va := by
          rw [hsplit]
          exact lookup_split l₁ l₂ m va hl₁m
        have hva : va ≠ [] := by
          have := hvals (m, va) (by rw [hsplit]; exact List.mem_append.2 (Or.inr (List.mem_cons_self _ _)))
          simpa using this
        have hlenrest : (l₁ ++ l₂).length ≤ fuel := by
          have := congrArg List.length hsplit
          simp only [List.length_append, List.length_cons] at this
          simp only [List.length_append]
          omega
        have hkeys : dkeys l = dkeys l₁ ++ m :: dkeys l₂ := by
          rw [hsplit]
          simp [dkeys_def]
        have hndm : m ∉ dkeys l₁ ++ dkeys l₂ ∧ (dkeys l₁ ++ dkeys l₂).Nodup := by
          have := hkeys ▸ hnd
          rw [List.nodup_middle, List.nodup_cons] at this
          simpa [dkeys_def] using this
        have hkeysrest : dkeys (l₁ ++ l₂) = dkeys l₁ ++ dkeys l₂ := by
          simp [dkeys_def]
        have hvalrest : ∀ p ∈ l₁ ++ l₂, p.2 ≠ ([] : List String) := by
          intro p hp
          refine hvals p ?_
          rw [hsplit]
          rcases List.mem_append.1 hp with hp1 | hp2
          · exact List.mem_append.2 (Or.inl hp1)
          · exact List.mem_append.2 (Or.inr (List.mem_cons_of_mem _ hp2))
        obtain ⟨ds, hchain, hperm, heq⟩ :=
          ih (l₁ ++ l₂) hlenrest (hkeysrest ▸ hndm.2) hvalrest
        have hdsmem : ∀ d ∈ ds, d ∈ dkeys l₁ ++ dkeys l₂ := by
          intro d hd
          have := hperm.mem_iff.1 hd
          rwa [hkeysrest] at this
        have hdsm : ∀ d ∈ ds, m < d := by
          intro d hd
          have hdl : d ∈ dkeys l := by
            rw [hkeys]
            rcases List.mem_append.1 (hdsmem d hd) with h1 | h2
            · exact List.mem_append.2 (Or.inl h1)
            · exact List.mem_append.2 (Or.inr (List.mem_cons_of_mem _ h2))
          have hle : m ≤ d := listMin_le _ d hdl
          have hneq : m ≠ d := by
            intro hh
            exact hndm.1 (hh ▸ hdsmem d hd)
          exact lt_of_le_of_ne hle hneq
        refine ⟨m :: ds, ?_, ?_, ?_⟩
        · rw [List.chain'_cons']
          exact ⟨fun y hy => hdsm y (List.mem_of_mem_head? hy), hchain⟩
        · have h1 : (m :: ds).Perm (m :: (dkeys l₁ ++ dkeys l₂)) :=
            (hkeysrest ▸ hperm).cons m
          refine h1.trans ?_
          rw [hkeys]
          exact List.perm_middle.symm
        · have hstep : TaskList.extractStep (fuel + 1) l =
              (if va.length > 0 then [va] else []) ++
                TaskList.extractStep fuel (l₁ ++ l₂) := by
            rw [extractStep_succ, if_neg hne, ← hmdef, hlook, herase]
            rfl
          rw [hstep, if_pos (List.length_pos.2 hva), heq]
          have hmapeq : (ds.map (fun d => ((l₁ ++ l₂).lookup d).getD [])) =
              (ds.map (fun d => (l.lookup d).getD [])) := by
            refine List.map_congr_left ?_
            intro d hd
            have hdm : d ≠ m := fun hh => (Int.lt_irrefl d (hh ▸ hdsm d hd)).elim
            rw [hsplit, lookup_skip l₁ l₂ m va d hdm]
          rw [hmapeq]
          simp [hlook]

/-! ## Organization and mutation invariants -/

theorem organize_tasks_eq (s : TaskListState) :
    (TaskList.organizeTasks s).tasks = s.tasks := rfl

theorem organize_groups_nonempty (s : TaskListState) :
    GroupsNonempty (TaskList.organizeTasks s) := by
  intro g hg
  exact extractStep_groups_nonempty _ _ g hg

theorem organize_partitions (s : TaskListState)
    (hid : ∀ p ∈ s.tasks, p.2.id = p.1) :
    TimelinePartitions (TaskList.organizeTasks s) := by
  unfold TimelinePartitions
  rw [organize_tasks_eq]
  have h1 := extractStep_flatten_perm
    (TaskList.buildDelays TaskList.jsDelay s.tasks).length
    (TaskList.buildDelays TaskList.jsDelay s.tasks) (Nat.le_refl _)
  have h2 := joinIds_buildDelays TaskList.jsDelay s.tasks
  have h3 : s.tasks.map (fun p => p.2.id) = s.tasks.map Prod.fst :=
    List.map_congr_left (fun p hp => hid p hp)
  exact (h1.trans h2).trans (h3 ▸ List.Perm.refl _)

theorem WFt_addTask_prv (s : TaskListState) (t : Task) (h : WFt s) :
    WFt (TaskList.addTask_prv s t) := by
  constructor
  · intro p hp
    rcases List.mem_append.1 hp with hp1 | hp2
    · exact h.1 p hp1
    · rcases List.mem_singleton.1 hp2 with rfl
      rfl
  · have hkeys : (TaskList.addTask_prv s t).tasks.map Prod.fst =
        s.tasks.map Prod.fst ++ [TaskList.freshId s] := by
      simp [TaskList.addTask_prv]
    rw [hkeys]
    refine List.nodup_append.2 ⟨h.2, List.nodup_singleton _, ?_⟩
    intro x hx hx2
    rcases List.mem_singleton.1 hx2 with rfl
    exact freshId_not_mem s hx

theorem timeline_addTask_prv (s : TaskListState) (t : Task) :
    (TaskList.addTask_prv s t).timeline = s.timeline := rfl

theorem WFt_eraseTask (s : TaskListState) (id : String) (h : WFt s) :
    WFt { s with tasks := s.tasks.eraseP (fun p => p.1 == id) } := by
  have hsub : (s.tasks.eraseP (fun p => p.1 == id)).Sublist s.tasks :=
    List.eraseP_sublist s.tasks
  constructor
  · intro p hp
    exact h.1 p (hsub.subset hp)
  · exact (hsub.map Prod.fst).nodup h.2

/-- The constructor fold and the `addTasks` fold step. -/
theorem ctor_fold_timeline (ts : List (Option Task)) :
    ∀ s : TaskListState, s.timeline = [] →
      (ts.foldl (fun acc t? => match t? with
        | none => acc
        | some t => TaskList.addTask_prv acc t) s).timeline = [] := by
  induction ts with
  | nil => intro s h; simpa
  | cons t? rest ih =>
      intro s h
      cases t? with
      | none => exact ih s h
      | some t => exact ih _ ((timeline_addTask_prv s t).trans h)

theorem ctor_fold_WFt (ts : List (Option Task)) :
    ∀ s : TaskListState, WFt s →
      WFt (ts.foldl (fun acc t? => match t? with
        | none => acc
        | some t => TaskList.addTask_prv acc t) s) := by
  induction ts with
  | nil => intro s h; simpa
  | cons t? rest ih =>
      intro s h
      cases t? with
      | none => exact ih s h
      | some t => exact ih _ (WFt_addTask_prv s t h)

theorem addTasks_fold_WFt (ts : List (Option Task)) :
    ∀ acc : Bool × TaskListState, WFt acc.2 →
      WFt ((ts.foldl (fun (acc : Bool × TaskListState) t? =>
        match t? with
        | none => acc
        | some t => (true, TaskList.addTask_prv acc.2 t)) acc).2) := by
  induction ts with
  | nil => intro acc h; simpa
  | cons t? rest ih =>
      intro acc h
      cases t? with
      | none => exact ih acc h
      | some t => exact ih _ (WFt_addTask_prv acc.2 t h)

theorem addTasks_fold_sticky (ts : List (Option Task)) :
    ∀ s : TaskListState,
      ((ts.foldl (fun (acc : Bool × TaskListState) t? =>
        match t? with
        | none => acc
        | some t => (true, TaskList.addTask_prv acc.2 t)) (true, s)).1) = true := by
  induction ts with
  | nil => intro s; rfl
  | cons t? rest ih =>
      intro s
      cases t? with
      | none => exact ih s
      | some t => exact ih _

theorem addTasks_fold_false (ts : List (Option Task)) :
    ∀ s : TaskListState,
      ((ts.foldl (fun (acc : Bool × TaskListState) t? =>
        match t? with
        | none => acc
        | some t => (true, TaskList.addTask_prv acc.2 t)) (false, s)).1) = false →
      ((ts.foldl (fun (acc : Bool × TaskListState) t? =>
        match t? with
        | none => acc
        | some t => (true, TaskList.addTask_prv acc.2 t)) (false, s)).2) = s := by
  induction ts with
  | nil => intro s _; rfl
  | cons t? rest ih =>
      intro s hf
      cases t? with
      | none => exact ih s hf
      | some t =>
          exfalso
          have := addTasks_fold_sticky rest (TaskList.addTask_prv s t)
          simp only [List.foldl_cons] at hf
          rw [hf] at this
          cases this

theorem removeTasks_fold_WFt (ids : List String) :
    ∀ acc : Bool × TaskListState, WFt acc.2 →
      WFt ((ids.foldl (fun (acc : Bool × TaskListState) id =>
        if (acc.2.tasks.lookup id).isSome then
          (true, { acc.2 with tasks := acc.2.tasks.eraseP (fun p => p.1 == id) })
        else acc) acc).2) := by
  induction ids with
  | nil => intro acc h; simpa
  | cons id rest ih =>
      intro acc h
      by_cases hl : (acc.2.tasks.lookup id).isSome = true
      · simp only [List.foldl_cons, if_pos hl]
        exact ih _ (WFt_eraseTask acc.2 id h)
      · simp only [List.foldl_cons, if_neg hl]
        exact ih acc h

theorem removeTasks_fold_sticky (ids : List String) :
    ∀ s : TaskListState,
      ((ids.foldl (fun (acc : Bool × TaskListState) id =>
        if (acc.2.tasks.lookup id).isSome then
          (true, { acc.2 with tasks := acc.2.tasks.eraseP (fun p => p.1 == id) })
        else acc) (true, s)).1) = true := by
  induction ids with
  | nil => intro s; rfl
  | cons id rest ih =>
      intro s
      by_cases hl : ((s.tasks.lookup id).isSome : Bool) = true
      · simp only [List.foldl_cons, if_pos hl]
        exact ih _
      · simp only [List.foldl_cons, if_neg hl]
        exact ih s

theorem removeTasks_fold_false (ids : List String) :
    ∀ s : TaskListState,
      ((ids.foldl (fun (acc : Bool × TaskListState) id =>
        if (acc.2.tasks.lookup id).isSome then
          (true, { acc.2 with tasks := acc.2.tasks.eraseP (fun p => p.1 == id) })
        else acc) (false, s)).1) = false →
      ((ids.foldl (fun (acc : Bool × TaskListState) id =>
        if (acc.2.tasks.lookup id).isSome then
          (true, { acc.2 with tasks := acc.2.tasks.eraseP (fun p => p.1 == id) })
        else acc) (false, s)).2) = s := by
  induction ids with
  | nil => intro s _; rfl
  | cons id rest ih =>
      intro s hf
      by_cases hl : ((s.tasks.lookup id).isSome : Bool) = true
      · exfalso
        simp only [List.foldl_cons, if_pos hl] at hf
        have := removeTasks_fold_sticky rest
          { s with tasks := s.tasks.eraseP (fun p => p.1 == id) }
        rw [hf] at this
        cases this
      · simp only [List.foldl_cons, if_neg hl] at hf ⊢
        exact ih s hf

theorem StateInv_organize (s : TaskListState) (h : WFt s) :
    StateInv (TaskList.organizeTasks s) :=
  ⟨⟨fun p hp => h.1 p hp, h.2⟩, organize_partitions s h.1,
    organize_groups_nonempty s⟩

theorem new_nil_eq : TaskList.new [] = { tasks := [], timeline := [] } := rfl

theorem StateInv_new_nil : StateInv (TaskList.new []) := by
  rw [new_nil_eq]
  refine ⟨⟨fun p hp => absurd hp (by simp), ?_⟩, ?_, ?_⟩
  · simp
  · simp [TimelinePartitions]
  · intro g hg
    simp at hg

theorem StateInv_applyOp (s : TaskListState) (op : TLOp) (h : StateInv s) :
    StateInv (applyOp s op) := by
  cases op with
  | add ts =>
      show StateInv (TaskList.addTasks s ts).2
      unfold TaskList.addTasks
      by_cases hc : ((ts.foldl (fun (acc : Bool × TaskListState) t? =>
          match t? with
          | none => acc
          | some t => (true, TaskList.addTask_prv acc.2 t)) (false, s)).1) = true
      · simp only [hc, if_true]
        exact StateInv_organize _ (addTasks_fold_WFt ts (false, s) h.1)
      · simp only [hc, if_false]
        rw [addTasks_fold_false ts s (Bool.not_eq_true _ ▸ hc)]
        exact h
  | remove ids =>
      show StateInv (TaskList.removeTasks s ids).2
      unfold TaskList.removeTasks
      by_cases hc : ((ids.foldl (fun (acc : Bool × TaskListState) id =>
          if (acc.2.tasks.lookup id).isSome then
            (true, { acc.2 with tasks := acc.2.tasks.eraseP (fun p => p.1 == id) })
          else acc) (false, s)).1) = true
      · simp only [hc, if_true]
        exact StateInv_organize _ (removeTasks_fold_WFt ids (false, s) h.1)
      · simp only [hc, if_false]
        rw [removeTasks_fold_false ids s (Bool.not_eq_true _ ▸ hc)]
        exact h

theorem StateInv_runOps (ops : List TLOp) : StateInv (runOps ops) := by
  have hgen : ∀ (ops : List TLOp) (s : TaskListState), StateInv s →
      StateInv (ops.foldl applyOp s) := by
    intro ops
    induction ops with
    | nil => intro s h; simpa
    | cons op rest ih =>
        intro s h
        exact ih _ (StateInv_applyOp s op h)
  exact hgen ops _ StateInv_new_nil

theorem getNextTaskIds_ne_nil_iff (s : TaskListState) (h : GroupsNonempty s) :
    TaskList.getNextTaskIds s ≠ [] ↔ s.timeline ≠ [] := by
  cases htl : s.timeline with
  | nil =>
      unfold TaskList.getNextTaskIds
      rw [htl]
      simp
  | cons g t =>
      have hg : g ≠ [] := h g (htl ▸ List.mem_cons_self _ _)
      unfold TaskList.getNextTaskIds
      rw [htl]
      simp only [List.head?_cons]
      rw [if_pos (List.length_pos.2 hg)]
      simp [hg]

/-- Claim C1: starting from an empty `TaskList`, after any sequence of
`addTasks`/`removeTasks` mutations the concatenation of the timeline's
id groups is a permutation of the task mapping's key set, and the keys are
distinct - so every stored id lies in exactly one group and no group holds an
id that is not stored. -/
theorem timeline_partitions_after_mutations (ops : List TLOp) :
    (runOps ops).timeline.flatten.Perm ((runOps ops).tasks.map Prod.fst) ∧
    ((runOps ops).tasks.map Prod.fst).Nodup :=
  ⟨(StateInv_runOps ops).2.1, (StateInv_runOps ops).1.2⟩

/-- Claim C10: construction, `addTasks`, `removeTasks` and `organizeTasks`
all leave only non-empty groups in the timeline, and consequently
`getNextTaskIds` returns a non-empty array exactly when the timeline is
non-empty. -/
theorem timeline_groups_nonempty_invariant :
    (∀ s : TaskListState, GroupsNonempty (TaskList.organizeTasks s)) ∧
    (∀ ts : List (Option Task), GroupsNonempty (TaskList.new ts)) ∧
    (∀ ops : List TLOp, GroupsNonempty (runOps ops) ∧
      (TaskList.getNextTaskIds (runOps ops) ≠ [] ↔ (runOps ops).timeline ≠ [])) := by
  refine ⟨organize_groups_nonempty, ?_, ?_⟩
  · intro ts
    unfold TaskList.new
    by_cases hc : 0 < TaskList.taskCount (ts.foldl (fun acc t? =>
        match t? with
        | none => acc
        | some t => TaskList.addTask_prv acc t) { tasks := [], timeline := [] })
    · simp only [if_pos hc]
      exact organize_groups_nonempty _
    · simp only [if_neg hc]
      intro g hg
      rw [ctor_fold_timeline ts { tasks := [], timeline := [] } rfl] at hg
      cases hg
  · intro ops
    exact ⟨(StateInv_runOps ops).2.2,
      getNextTaskIds_ne_nil_iff _ (StateInv_runOps ops).2.2⟩

/-- Claim C2, amended: for a well-formed registry, `organizeTasks` (of
`src/TaskList.js`) groups tasks by the raw delay
`executionTime - creationTime`, without clamping: there is a strictly
increasing list of delays `ds`, one per timeline group, such that an id lies in
group `i` exactly when its stored task's raw delay is `ds i`.  Hence two tasks
with equal raw delay share a group, tasks with different raw delays lie in
different groups, and groups are ordered strictly ascending by raw delay. -/
theorem organize_groups_by_raw_delay (s : TaskListState) (hwf : WFt s) :
    ∃ ds : List Int, ds.Chain' (· < ·) ∧
      (TaskList.organizeTasks s).timeline.length = ds.length ∧
      ∀ i : Nat, i < ds.length → ∀ id : String,
        (id ∈ (TaskList.organizeTasks s).timeline.getD i [] ↔
          ∃ t, (id, t) ∈ s.tasks ∧ TaskList.jsDelay t = ds.getD i 0) := by
  obtain ⟨ds, hchain, hperm, heq⟩ := extractStep_spec
      (TaskList.buildDelays TaskList.jsDelay s.tasks).length
      (TaskList.buildDelays TaskList.jsDelay s.tasks) (Nat.le_refl _)
      (dkeys_buildDelays_nodup _ _) (buildDelays_vals_nonempty _ _)
  refine ⟨ds, hchain, ?_, ?_⟩
  · show (TaskList.extractLoop _).length = _
    rw [TaskList.extractLoop, heq, List.length_map]
  · intro i hi id
    have hgetd : ds.getD i 0 = ds[i] := by
      rw [List.getD_eq_getElem?_getD, List.getElem?_eq_getElem hi]
      rfl
    have h1 : (TaskList.organizeTasks s).timeline.getD i [] =
        ((TaskList.buildDelays TaskList.jsDelay s.tasks).lookup (ds.getD i 0)).getD [] := by
      show (TaskList.extractLoop _).getD i [] = _
      rw [TaskList.extractLoop, heq]
      rw [List.getD_eq_getElem?_getD, List.getElem?_map, List.getElem?_eq_getElem hi]
      rw [hgetd]
      rfl
    rw [h1, mem_lookup_iff _ _ _ (dkeys_buildDelays_nodup _ _),
      memDelay_buildDelays]
    constructor
    · rintro ⟨k, t, hkt, hid, hdf⟩
      have hk : t.id = k := hwf.1 (k, t) hkt
      rw [hid] at hk
      rw [← hk] at hkt
      exact ⟨t, hkt, hdf⟩
    · rintro ⟨t, hmem, hdf⟩
      exact ⟨id, t, hmem, hwf.1 (id, t) hmem, hdf⟩

/-- Witness for `organize_groups_by_raw_delay` at the concrete two-task
registry. -/
theorem organize_groups_by_raw_delay_witness :
    WFt twoTaskState ∧
    (∃ ds : List Int, ds.Chain' (· < ·) ∧
      (TaskList.organizeTasks twoTaskState).timeline.length = ds.length ∧
      ∀ i : Nat, i < ds.length → ∀ id : String,
        (id ∈ (TaskList.organizeTasks twoTaskState).timeline.getD i [] ↔
          ∃ t, (id, t) ∈ twoTaskState.tasks ∧ TaskList.jsDelay t = ds.getD i 0)) :=
  ⟨by decide, organize_groups_by_raw_delay twoTaskState (by decide)⟩

/-! ## Reconciliation idempotence -/

theorem checkTaskTracker_noop (now : Int) (s : AgendaState)
    (h : (match s.nextTasksIds with | some l => l | none => ([] : List String)) =
      TaskList.getNextTaskIds s.taskList) :
    Agenda.checkTaskTracker now s = some s := by
  unfold Agenda.checkTaskTracker
  rw [h]
  have hany : (TaskList.getNextTaskIds s.taskList).any
      (fun idMine => ! (TaskList.getNextTaskIds s.taskList).contains idMine) = false := by
    rw [List.any_eq_false]
    intro x hx
    simp [hx]
  simp [hany]

theorem setTaskTracker_tracks_next (now now2 : Int) (s s2 : AgendaState)
    (hwf : AgendaWF s)
    (h : Agenda.setTaskTracker now (Agenda.clearTaskTracker s) = some s2) :
    Agenda.checkTaskTracker now2 s2 = some s2 := by
  unfold Agenda.setTaskTracker at h
  simp only [Agenda.clearTaskTracker] at h
  cases hg : TaskList.getNextTaskIds s.taskList with
  | nil =>
      rw [hg] at h
      simp only at h
      cases h
      apply checkTaskTracker_noop
      simp only [Agenda.clearTaskTracker]
      rw [hg]
  | cons id0 rest =>
      have hid0 : id0 ∈ TaskList.getNextTaskIds s.taskList := by
        rw [hg]; exact List.mem_cons_self _ _
      obtain ⟨t, ht⟩ := Option.isSome_iff_exists.1 (hwf id0 hid0)
      have hgt : TaskList.getTasks_id s.taskList [id0] = [t.getCopy] := by
        unfold TaskList.getTasks_id
        simp [ht]
      rw [hg] at h
      simp only [hgt, List.head?_cons] at h
      cases h
      apply checkTaskTracker_noop
      simp only
      rw [hg]

/-- Claim C4: reconciliation is idempotent.  If one `#checkTaskTracker` run on
a well-formed agenda state yields `s2`, a second run with no intervening
registry mutation returns `s2` itself, entirely unchanged: the tracked-id set,
the tracked execution time, the timer handle and the timer counter (which
increases exactly when a timer is armed) are all identical, so the second run
performs no cancel and no rearm. -/
theorem reconcile_idempotent (now now2 : Int) (s s2 : AgendaState)
    (hwf : AgendaWF s) (h : Agenda.checkTaskTracker now s = some s2) :
    Agenda.checkTaskTracker now2 s2 = some s2 := by
  unfold Agenda.checkTaskTracker at h
  by_cases hlen : (match s.nextTasksIds with | some l => l | none => ([] : List String)).length =
      (TaskList.getNextTaskIds s.taskList).length
  · by_cases hany : ((match s.nextTasksIds with | some l => l | none => ([] : List String)).any
        (fun idMine => ! (TaskList.getNextTaskIds s.taskList).contains idMine)) = true
    · simp only [if_pos hlen, hany, if_true] at h
      exact setTaskTracker_tracks_next now now2 s s2 hwf h
    · have hany2 : ((match s.nextTasksIds with | some l => l | none => ([] : List String)).any
          (fun idMine => ! (TaskList.getNextTaskIds s.taskList).contains idMine)) = false :=
        Bool.eq_false_iff.2 hany
      simp only [if_pos hlen, hany2] at h
      simp only [show (false = true) = False by simp] at h
      rw [if_neg (fun hh => hh)] at h
      cases h
      unfold Agenda.checkTaskTracker
      simp only [if_pos hlen, hany2]
      simp only [show (false = true) = False by simp]
      rw [if_neg (fun hh => hh)]
  · simp only [if_neg hlen, if_true] at h
    exact setTaskTracker_tracks_next now now2 s s2 hwf h

/-- Witness for `reconcile_idempotent`: reconciling the stale agenda arms the
timer once, and the second run leaves the reconciled state untouched. -/
theorem reconcile_idempotent_witness :
    Agenda.checkTaskTracker 7 reconciledAgenda = some reconciledAgenda :=
  reconcile_idempotent 3 7 staleAgenda reconciledAgenda (by decide) (by decide)

/-- Claim C2, counterexample: in `src/TaskList.js` the grouping key is the raw
difference `executionTime - creationTime`, not clamped.  `taskNeg` (raw delay
-5) and `taskZero` (raw delay 0) have equal clamped delays, yet after
`organizeTasks` they lie in different timeline groups, and the group of the
negative raw delay comes first. -/
theorem organize_not_clamped_counterexample :
    TaskList.clampedDelay taskNeg = TaskList.clampedDelay taskZero ∧
    (TaskList.organizeTasks negZeroState).timeline = [["a"], ["b"]] ∧
    ¬ ∃ g ∈ (TaskList.organizeTasks negZeroState).timeline, "a" ∈ g ∧ "b" ∈ g := by
  decide

/-- Claim C3: `Agenda.removeTask` passes its rest-parameter array (not spread)
to `TaskList.removeTasks`, so the registry looks up the single property key
`"aa,bb"`.  Removing the two stored tasks `"aa"` and `"bb"` therefore removes
nothing and returns count 2 with the state unchanged, while a single id still
works (the one-element array coerces to the id itself). -/
theorem removeTask_multi_id_removes_nothing :
    Agenda.removeTask 0 twoTaskAgenda ["aa", "bb"] = some (2, twoTaskAgenda) ∧
    (twoTaskState.tasks.lookup "aa").isSome = true ∧
    (twoTaskState.tasks.lookup "bb").isSome = true ∧
    (Agenda.removeTask 0 twoTaskAgenda ["aa"]).map Prod.fst = some 1 := by
  decide

/-- Claim C5: the bounds check of `getTasks_timelineIndex` is
`index < 0 || index > timelineLength()`, so the out-of-range index
`timelineLength` itself is accepted and yields `[]` instead of the RangeError
required for every index `>=` the timeline length; `-1` and `length + 1` do
raise it. -/
theorem timelineIndex_at_length_not_rejected :
    TaskList.timelineLength oneTaskState = 1 ∧
    TaskList.getTasks_timelineIndex oneTaskState 1 = .ok [] ∧
    TaskList.getTasks_timelineIndex oneTaskState (-1) = .error .rangeError ∧
    TaskList.getTasks_timelineIndex oneTaskState 2 = .error .rangeError ∧
    TaskList.getTasks_timelineIndex oneTaskState 0 = .ok [Task.getCopy taskAA] := by
  decide

/-- Claim C6: `Task.getCopy` copies the `Date` reference fields without cloning
the `Date` objects.  The task returned by the id query aliases the stored
task's creation-time cell: writing time value 999 through the returned copy's
reference changes the registry's observed creation time from 100 to 999. -/
theorem getCopy_shares_date_references :
    getTasksH_id heapRegistry ["aa"] = [TaskH.getCopy heapTask] ∧
    (TaskH.getCopy heapTask).creationTimeRef = heapTask.creationTimeRef ∧
    readDate dateStore100 heapTask.creationTimeRef = 100 ∧
    readDate (writeDate dateStore100 (TaskH.getCopy heapTask).creationTimeRef 999)
      heapTask.creationTimeRef = 999 := by
  decide

/-- Claim C7, counterexample: with the tracker cleared (nothing tracked) the
execution-time query still returns a `Date` - `new Date(null)`, the epoch -
never `undefined`/`null`. -/
theorem getNextExecutionTime_cleared_not_null :
    (Agenda.clearTaskTracker idleAgenda).nextExecutionTime = none ∧
    Agenda.getNextExectutionTime (Agenda.clearTaskTracker idleAgenda) = some 0 ∧
    Agenda.getNextExectutionTime (Agenda.clearTaskTracker idleAgenda) ≠ none := by
  decide

/-- Claim C7, amended: `getNextExectutionTime` returns the epoch date (time
value 0) whenever nothing is tracked - in particular right after
`#clearTaskTracker` - and a date carrying the tracked execution time whenever
one is tracked. -/
theorem getNextExecutionTime_spec :
    (∀ s : AgendaState,
      Agenda.getNextExectutionTime (Agenda.clearTaskTracker s) = some 0) ∧
    (∀ (s : AgendaState) (t : Int), s.nextExecutionTime = some t →
      Agenda.getNextExectutionTime s = some t) := by
  refine ⟨fun s => rfl, fun s t h => ?_⟩
  simp [Agenda.getNextExectutionTime, Agenda.newDateFromNullable, h]

/-- Witness for `getNextExecutionTime_spec` at concrete agenda states. -/
theorem getNextExecutionTime_spec_witness :
    Agenda.getNextExectutionTime (Agenda.clearTaskTracker trackedAgenda) = some 0 ∧
    Agenda.getNextExectutionTime trackedAgenda = some 42 :=
  ⟨getNextExecutionTime_spec.1 trackedAgenda,
   getNextExecutionTime_spec.2 trackedAgenda 42 rfl⟩

/-- Claim C8, counterexample: delay-mode construction accepts the negative
integer delay `-1` (only `Number.isInteger` is checked), producing a task whose
execution time precedes its creation time, where the claim requires an
InvalidArgument condition for any delay that is not a non-negative integer. -/
theorem createWithDelay_accepts_negative :
    Task.createTaskWithExecutionDelay 0 (.vInt (-1)) (.vFun 0) [] =
      .ok { id := "", name := none, description := none, creationTime := 0,
            executionTime := -1, payloadTag := 0, payloadArgs := [] } ∧
    (JsVal.vInt (-1)).intVal < 0 := by
  decide

/-- Claim C8, amended: execution-time mode raises its InvalidArgument condition
(a TypeError) exactly when the time is not a `Date` instance or the function is
not callable; delay mode raises exactly when the delay is not an integer (the
sign is never checked) or the function is not callable; otherwise construction
succeeds. -/
theorem construction_validation :
    (∀ (now : Int) (time f : JsVal) (args : List JsVal),
      (Task.createTaskWithExecutionTime now time f args = .error .typeError ↔
        ¬(time.isDateInstance = true ∧ f.isFunctionInstance = true)) ∧
      ((∃ t, Task.createTaskWithExecutionTime now time f args = .ok t) ↔
        (time.isDateInstance = true ∧ f.isFunctionInstance = true))) ∧
    (∀ (now : Int) (d f : JsVal) (args : List JsVal),
      (Task.createTaskWithExecutionDelay now d f args = .error .typeError ↔
        ¬(d.isIntegerNumber = true ∧ f.isFunctionInstance = true)) ∧
      ((∃ t, Task.createTaskWithExecutionDelay now d f args = .ok t) ↔
        (d.isIntegerNumber = true ∧ f.isFunctionInstance = true))) := by
  constructor
  · intro now time f args
    unfold Task.createTaskWithExecutionTime
    split_ifs with h1 h2 <;> simp_all
  · intro now d f args
    unfold Task.createTaskWithExecutionDelay
    split_ifs with h1 h2 <;> simp_all

/-- Claim C9: searching the registry that holds `namelessTask` (whose name is
the unset `null` default) throws a TypeError in both the case-sensitive mode
(`null.includes`) and the case-insensitive mode (`null.toLowerCase()`), instead
of completing with the task treated as a non-match. -/
theorem findTasksByName_null_name_throws :
    TaskList.findTasksByName namelessState "a" true = .error .typeError ∧
    TaskList.findTasksByName namelessState "a" false = .error .typeError ∧
    (∃ p ∈ namelessState.tasks, p.2.name = none) := by
  decide

end TaskTimer
